import Mathlib

set_option maxHeartbeats 1000000

/-
Verification of the FAST corner detector (repository lafin/fast, src/main.go
and the package variant of the same code).  The Go functions are embedded as
executable Lean definitions: pixel buffers become total functions from Int to
Int (matching the map based package variant, whose lookups default to 0), and
a separate Option valued embedding models the slice based variant whose
indexing can fail.
-/

namespace Fast

/-- Pixel comparator from src/main.go (isBrighter): the circle pixel is
brighter than the candidate p by more than a threshold. -/
def isBrighter (circlePixel p threshold : Int) : Bool :=
  decide (circlePixel - p > threshold)

/-- Pixel comparator from src/main.go (isDarker): the circle pixel is darker
than the candidate p by more than a threshold. -/
def isDarker (circlePixel p threshold : Int) : Bool :=
  decide (p - circlePixel > threshold)

/-- Circle geometry from src/main.go (getCircleOffsets): the sixteen linear
offsets of the radius 3 discretized circle, built incrementally exactly as in
the source. -/
def getCircleOffsets (width : Int) : Fin 16 → Int := fun k =>
  let c0 := -width - width - width
  let c1 := c0 + 1
  let c2 := c1 + width + 1
  let c3 := c2 + width + 1
  let c4 := c3 + width
  let c5 := c4 + width
  let c6 := c5 + width - 1
  let c7 := c6 + width - 1
  let c8 := c7 - 1
  let c9 := c8 - 1
  let c10 := c9 - width - 1
  let c11 := c10 - width - 1
  let c12 := c11 - width
  let c13 := c12 - width
  let c14 := c13 - width + 1
  let c15 := c14 - width + 1
  match k.val with
  | 0 => c0 | 1 => c1 | 2 => c2 | 3 => c3 | 4 => c4 | 5 => c5 | 6 => c6 | 7 => c7
  | 8 => c8 | 9 => c9 | 10 => c10 | 11 => c11 | 12 => c12 | 13 => c13 | 14 => c14
  | _ => c15

/-- Fast rejection test from src/main.go (isTriviallyExcluded).  The source
reuses one mutable count variable; the second counting pass is modelled by
the value count2. -/
def isTriviallyExcluded (circlePixels : Fin 16 → Int) (p threshold : Int) : Bool :=
  let circleBottom := circlePixels 8
  let circleLeft := circlePixels 12
  let circleRight := circlePixels 4
  let circleTop := circlePixels 0
  let count : Nat :=
    (if isBrighter circleTop p threshold then 1 else 0) +
    (if isBrighter circleRight p threshold then 1 else 0) +
    (if isBrighter circleBottom p threshold then 1 else 0) +
    (if isBrighter circleLeft p threshold then 1 else 0)
  if count < 3 then
    let count2 : Nat :=
      (if isDarker circleTop p threshold then 1 else 0) +
      (if isDarker circleRight p threshold then 1 else 0) +
      (if isDarker circleBottom p threshold then 1 else 0) +
      (if isDarker circleLeft p threshold then 1 else 0)
    if count2 < 3 then true else false
  else false

/-- Inner 9 sample loop of isCorner from src/main.go, including its early
break: y is the current loop index, fuel counts the remaining iterations
(the loop runs for y from 0 while y is below 9, so fuel starts at 9), and
brighter and darker are the two mutable flags.  Every break in the source
returns with both flags false. -/
def innerScan (p : Int) (cp : Fin 16 → Int) (t : Int) (x : Nat) :
    Nat → Nat → Bool → Bool → Bool × Bool
  | _, 0, brighter, darker => (brighter, darker)
  | y, fuel + 1, brighter, darker =>
    let circlePixel := cp ⟨(x + y) % 16, Nat.mod_lt _ (by omega)⟩
    if isBrighter p circlePixel t then
      if isDarker p circlePixel t then
        innerScan p cp t x (y + 1) fuel brighter darker
      else
        if brighter = false then (brighter, false)
        else innerScan p cp t x (y + 1) fuel brighter false
    else
      if darker = false then (false, darker)
      else
        if isDarker p circlePixel t then
          innerScan p cp t x (y + 1) fuel false darker
        else (false, false)

/-- Outer 16 start loop of isCorner from src/main.go: x is the current start
position and fuel the remaining iterations (starting at 16); the loop
returns true as soon as one start position keeps a flag alive. -/
def segmentScan (p : Int) (cp : Fin 16 → Int) (t : Int) : Nat → Nat → Bool
  | _, 0 => false
  | x, fuel + 1 =>
    let r := innerScan p cp t x 0 9 true true
    if r.1 || r.2 then true else segmentScan p cp t (x + 1) fuel

/-- Segment test from src/main.go (isCorner): fast rejection first, then the
16 start contiguous arc search. -/
def isCorner (p : Int) (circlePixels : Fin 16 → Int) (threshold : Int) : Bool :=
  if isTriviallyExcluded circlePixels p threshold then false
  else segmentScan p circlePixels threshold 0 16

/-- One candidate test of findCorners from src/main.go: read the candidate
intensity at the flat index and gather the sixteen circle pixels through the
offset table. -/
def cornerAt (pixels : Int → Int) (width : Nat) (threshold : Int) (i j : Nat) : Bool :=
  let w : Int := ((i * width + j : Nat) : Int)
  isCorner (pixels w) (fun k => pixels (w + getCircleOffsets (width : Int) k)) threshold

/-- Column loop of findCorners from src/main.go, abstracted over the corner
predicate of the current row: j runs from its start while below stop (stop is
width - 3); a hit emits the column and advances by 4 (the skip optimization),
a miss advances by 1. -/
def rowScan (P : Nat → Bool) (stop : Nat) (j : Nat) : List Nat :=
  if h : j < stop then
    if P j then j :: rowScan P stop (j + 4)
    else rowScan P stop (j + 1)
  else []
termination_by stop - j
decreasing_by
  all_goals omega

/-- Row loop of findCorners from src/main.go: rows i from the given start
while below height - 3; every row contributes its column hits paired as
(col, row). -/
def findCornersFrom (pixels : Int → Int) (width height : Nat) (threshold : Int)
    (i : Nat) : List (Nat × Nat) :=
  if h : i < height - 3 then
    (rowScan (cornerAt pixels width threshold i) (width - 3) 3).map (fun j => (j, i))
      ++ findCornersFrom pixels width height threshold (i + 1)
  else []
termination_by height - i
decreasing_by
  all_goals omega

/-- Scan driver findCorners from src/main.go: the Go code appends the flat
pair j, i for every detected corner; the flat interleaved list is modelled
as a list of (col, row) pairs. -/
def findCorners (pixels : Int → Int) (width height : Nat) (threshold : Int) :
    List (Nat × Nat) :=
  findCornersFrom pixels width height threshold 3

/-- Conjunction of isBrighter over a window of circle samples: all samples at
circular indices x + y, x + y + 1, ..., x + y + fuel - 1 make the candidate
look brighter. -/
def allBrighterFrom (p : Int) (cp : Fin 16 → Int) (t : Int) (x y fuel : Nat) : Bool :=
  decide (∀ k, k < fuel →
    isBrighter p (cp ⟨(x + (y + k)) % 16, Nat.mod_lt _ (by omega)⟩) t = true)

/-- Conjunction of isDarker over a window of circle samples. -/
def allDarkerFrom (p : Int) (cp : Fin 16 → Int) (t : Int) (x y fuel : Nat) : Bool :=
  decide (∀ k, k < fuel →
    isDarker p (cp ⟨(x + (y + k)) % 16, Nat.mod_lt _ (by omega)⟩) t = true)

/-- A window of length n + 1 of a predicate splits into its first entry and
the shifted window of length n. -/
theorem forall_window_succ (Q : Nat → Prop) (y fuel : Nat) :
    (∀ k, k < fuel + 1 → Q (y + k)) ↔ (Q y ∧ ∀ k, k < fuel → Q (y + 1 + k)) := by
  constructor
  · intro h
    refine ⟨by simpa using h 0 (by omega), fun k hk => ?_⟩
    have hq := h (k + 1) (by omega)
    rwa [show y + (k + 1) = y + 1 + k by omega] at hq
  · rintro ⟨h0, h⟩ k hk
    rcases Nat.eq_zero_or_pos k with rfl | hpos
    · simpa using h0
    · have hq := h (k - 1) (by omega)
      rwa [show y + 1 + (k - 1) = y + k by omega] at hq

theorem allBrighterFrom_succ (p : Int) (cp : Fin 16 → Int) (t : Int) (x y fuel : Nat) :
    allBrighterFrom p cp t x y (fuel + 1) =
      (isBrighter p (cp ⟨(x + y) % 16, Nat.mod_lt _ (by omega)⟩) t &&
        allBrighterFrom p cp t x (y + 1) fuel) := by
  simp only [allBrighterFrom]
  rw [decide_eq_decide.mpr (forall_window_succ
    (fun m => isBrighter p (cp ⟨(x + m) % 16, Nat.mod_lt _ (by omega)⟩) t = true) y fuel)]
  · simp
  · infer_instance

theorem allDarkerFrom_succ (p : Int) (cp : Fin 16 → Int) (t : Int) (x y fuel : Nat) :
    allDarkerFrom p cp t x y (fuel + 1) =
      (isDarker p (cp ⟨(x + y) % 16, Nat.mod_lt _ (by omega)⟩) t &&
        allDarkerFrom p cp t x (y + 1) fuel) := by
  simp only [allDarkerFrom]
  rw [decide_eq_decide.mpr (forall_window_succ
    (fun m => isDarker p (cp ⟨(x + m) % 16, Nat.mod_lt _ (by omega)⟩) t = true) y fuel)]
  · simp
  · infer_instance

/-- The inner loop with its early breaks computes exactly the two window
conjunctions: the breaks only fire once both conjunctions are already
falsified. -/
theorem innerScan_spec (p : Int) (cp : Fin 16 → Int) (t : Int) (x : Nat) :
    ∀ fuel y b d, innerScan p cp t x y fuel b d =
      (b && allBrighterFrom p cp t x y fuel, d && allDarkerFrom p cp t x y fuel)
  | 0, y, b, d => by
    simp [innerScan, allBrighterFrom, allDarkerFrom]
  | fuel + 1, y, b, d => by
    simp only [innerScan]
    rw [allBrighterFrom_succ, allDarkerFrom_succ]
    cases hB : isBrighter p (cp ⟨(x + y) % 16, Nat.mod_lt _ (by omega)⟩) t <;>
      cases hD : isDarker p (cp ⟨(x + y) % 16, Nat.mod_lt _ (by omega)⟩) t <;>
        cases b <;> cases d <;>
          simp [innerScan_spec p cp t x fuel (y + 1), hB, hD]

/-- Verdict of the inner loop for one start position: some flag survives all
nine samples. -/
def arcAt (p : Int) (cp : Fin 16 → Int) (t : Int) (x : Nat) : Bool :=
  allBrighterFrom p cp t x 0 9 || allDarkerFrom p cp t x 0 9

/-- The outer loop accepts exactly when some start position within its fuel
has a full arc. -/
theorem segmentScan_spec (p : Int) (cp : Fin 16 → Int) (t : Int) :
    ∀ fuel x, segmentScan p cp t x fuel = true ↔
      ∃ k, k < fuel ∧ arcAt p cp t (x + k) = true
  | 0, x => by simp [segmentScan]
  | fuel + 1, x => by
    have hstep : innerScan p cp t x 0 9 true true =
        (allBrighterFrom p cp t x 0 9, allDarkerFrom p cp t x 0 9) := by
      rw [innerScan_spec]; simp
    simp only [segmentScan, hstep]
    by_cases hx : (allBrighterFrom p cp t x 0 9 || allDarkerFrom p cp t x 0 9) = true
    · simp only [hx, if_pos]
      exact iff_of_true trivial ⟨0, by omega, by simpa [arcAt] using hx⟩
    · simp only [Bool.not_eq_true] at hx
      rw [if_neg (by simp [hx])]
      rw [segmentScan_spec p cp t fuel (x + 1)]
      constructor
      · rintro ⟨k, hk, harc⟩
        exact ⟨k + 1, by omega, by rwa [show x + (k + 1) = x + 1 + k by omega]⟩
      · rintro ⟨k, hk, harc⟩
        rcases Nat.eq_zero_or_pos k with rfl | hpos
        · exfalso
          rw [show x + 0 = x by omega] at harc
          simp [arcAt, hx] at harc
        · exact ⟨k - 1, by omega, by rwa [show x + 1 + (k - 1) = x + k by omega]⟩

/-- Number of the four cardinal circle samples (top, right, bottom, left)
that are brighter than the candidate by more than the threshold. -/
def brightCardinals (cp : Fin 16 → Int) (p t : Int) : Nat :=
  (if cp 0 - p > t then 1 else 0) + (if cp 4 - p > t then 1 else 0) +
  (if cp 8 - p > t then 1 else 0) + (if cp 12 - p > t then 1 else 0)

/-- Number of the four cardinal circle samples that are darker than the
candidate by more than the threshold. -/
def darkCardinals (cp : Fin 16 → Int) (p t : Int) : Nat :=
  (if p - cp 0 > t then 1 else 0) + (if p - cp 4 > t then 1 else 0) +
  (if p - cp 8 > t then 1 else 0) + (if p - cp 12 > t then 1 else 0)

/-- The fast rejection test lets a sample through exactly when three of the
four cardinal samples qualify in one common direction. -/
theorem isTriviallyExcluded_eq_false_iff (cp : Fin 16 → Int) (p t : Int) :
    isTriviallyExcluded cp p t = false ↔
      3 ≤ brightCardinals cp p t ∨ 3 ≤ darkCardinals cp p t := by
  simp only [isTriviallyExcluded, isBrighter, isDarker, brightCardinals, darkCardinals,
    decide_eq_true_eq]
  split_ifs <;> simp_all <;> omega

/-- Unfolding of isCorner into its two stages. -/
theorem isCorner_eq (p : Int) (cp : Fin 16 → Int) (t : Int) :
    isCorner p cp t = true ↔
      isTriviallyExcluded cp p t = false ∧ segmentScan p cp t 0 16 = true := by
  unfold isCorner
  cases h : isTriviallyExcluded cp p t <;> simp [h]

/-- One start position has a full arc exactly when all nine of its samples
are uniformly brighter or uniformly darker than the candidate. -/
theorem arcAt_iff (p : Int) (cp : Fin 16 → Int) (t : Int) (x : Nat) :
    arcAt p cp t x = true ↔
      ((∀ y, y < 9 → cp ⟨(x + y) % 16, Nat.mod_lt _ (by omega)⟩ - p > t) ∨
       (∀ y, y < 9 → p - cp ⟨(x + y) % 16, Nat.mod_lt _ (by omega)⟩ > t)) := by
  simp only [arcAt, allBrighterFrom, allDarkerFrom, isBrighter, isDarker,
    Bool.or_eq_true, decide_eq_true_eq, Nat.zero_add]
  exact or_comm

/-- Column component of each circle position, read off the incremental
construction: index 0 is the top of the circle, indices proceed clockwise. -/
def circleColDelta : Fin 16 → Int := fun k =>
  match k.val with
  | 0 => 0 | 1 => 1 | 2 => 2 | 3 => 3 | 4 => 3 | 5 => 3 | 6 => 2 | 7 => 1
  | 8 => 0 | 9 => -1 | 10 => -2 | 11 => -3 | 12 => -3 | 13 => -3 | 14 => -2
  | _ => -1

/-- Row component of each circle position. -/
def circleRowDelta : Fin 16 → Int := fun k =>
  match k.val with
  | 0 => -3 | 1 => -3 | 2 => -2 | 3 => -1 | 4 => 0 | 5 => 1 | 6 => 2 | 7 => 3
  | 8 => 3 | 9 => 3 | 10 => 2 | 11 => 1 | 12 => 0 | 13 => -1 | 14 => -2
  | _ => -3

/-- Every circle offset decomposes as row delta times width plus column
delta. -/
theorem getCircleOffsets_decomp (width : Int) (k : Fin 16) :
    getCircleOffsets width k = circleRowDelta k * width + circleColDelta k := by
  fin_cases k <;> simp [getCircleOffsets, circleRowDelta, circleColDelta] <;> ring

/-- C8: isBrighter is true exactly when the first argument exceeds the second
by more than the threshold, isDarker exactly in the mirrored case, and both
comparisons are strict: at a difference equal to the threshold the
corresponding predicate is false. -/
theorem claim_C8_comparators_strict (a b t : Int) :
    (isBrighter a b t = true ↔ a - b > t) ∧
    (isDarker a b t = true ↔ b - a > t) ∧
    (a - b = t → isBrighter a b t = false) ∧
    (b - a = t → isDarker a b t = false) := by
  refine ⟨by simp [isBrighter], by simp [isDarker], ?_, ?_⟩ <;>
    intro h <;> simp [isBrighter, isDarker] <;> omega

/-- Witness for C8 at a concrete boundary input: a difference exactly equal
to the threshold yields false for the matching predicate. -/
theorem claim_C8_comparators_strict_witness :
    isBrighter 5 3 2 = false ∧ isDarker 3 5 2 = false :=
  ⟨(claim_C8_comparators_strict 5 3 2).2.2.1 (by decide),
   (claim_C8_comparators_strict 3 5 2).2.2.2 (by decide)⟩

/-- Concrete circle sample refuting C1: the nine contiguous samples at
indices 1 through 9 are brighter than the candidate 100 by 20 (threshold
10), but only two of the four cardinal samples (4 and 8) are bright, so the
fast rejection test discards the candidate. -/
def cpC1 : Fin 16 → Int := fun k => if k.val = 0 ∨ 10 ≤ k.val then 100 else 120

/-- C1 counterexample: the full segment test alone accepts this sample while
isCorner (rejection test first) rejects it, so the rejection step changes
the verdict. -/
theorem claim_C1_counterexample :
    segmentScan 100 cpC1 10 0 16 = true ∧ isCorner 100 cpC1 10 = false := by
  constructor <;> decide

/-- C1 (amended): the rejection step only short circuits in one direction:
whenever isCorner accepts, the full segment test alone accepts as well.  The
converse direction of the original claim is refuted by the counterexample. -/
theorem claim_C1_rejection_one_sided (p : Int) (cp : Fin 16 → Int) (t : Int)
    (h : isCorner p cp t = true) : segmentScan p cp t 0 16 = true := by
  by_cases he : isTriviallyExcluded cp p t = true <;> simp [isCorner, he] at h <;> tauto

/-- Uniformly bright circle sample used as the C1 witness input. -/
def cpBright : Fin 16 → Int := fun _ => 120

/-- Witness for the amended C1 at a concrete accepted sample. -/
theorem claim_C1_rejection_one_sided_witness :
    segmentScan 100 cpBright 10 0 16 = true :=
  claim_C1_rejection_one_sided 100 cpBright 10 (by decide)

/-- Full characterization of isCorner: the cardinal precondition together
with the existence of a nine sample arc. -/
theorem isCorner_characterization (p : Int) (cp : Fin 16 → Int) (t : Int) :
    isCorner p cp t = true ↔
      ((3 ≤ brightCardinals cp p t ∨ 3 ≤ darkCardinals cp p t) ∧
        ∃ x, x < 16 ∧
          ((∀ y, y < 9 → cp ⟨(x + y) % 16, Nat.mod_lt _ (by omega)⟩ - p > t) ∨
           (∀ y, y < 9 → p - cp ⟨(x + y) % 16, Nat.mod_lt _ (by omega)⟩ > t))) := by
  rw [isCorner_eq, isTriviallyExcluded_eq_false_iff]
  apply and_congr Iff.rfl
  rw [segmentScan_spec]
  constructor
  · rintro ⟨k, hk, harc⟩
    exact ⟨k, hk, (arcAt_iff p cp t k).mp (by simpa using harc)⟩
  · rintro ⟨x, hx, hspec⟩
    exact ⟨x, hx, by simpa using (arcAt_iff p cp t x).mpr hspec⟩

/-- C2: isCorner accepts exactly when at least three of the four cardinal
samples are uniformly bright or uniformly dark beyond the threshold, and
some of the sixteen start positions carries nine circularly contiguous
samples that are all brighter or all darker than the candidate by more than
the threshold; the early exits of the inner loop do not change this. -/
theorem claim_C2_isCorner_characterization (p : Int) (cp : Fin 16 → Int) (t : Int) :
    isCorner p cp t = true ↔
      ((3 ≤ brightCardinals cp p t ∨ 3 ≤ darkCardinals cp p t) ∧
        ∃ x, x < 16 ∧
          ((∀ y, y < 9 → cp ⟨(x + y) % 16, Nat.mod_lt _ (by omega)⟩ - p > t) ∨
           (∀ y, y < 9 → p - cp ⟨(x + y) % 16, Nat.mod_lt _ (by omega)⟩ > t))) :=
  isCorner_characterization p cp t

/-- C4: for every positive width the sixteen offsets are exactly the
clockwise radius 3 circle offsets row times width plus column listed in the
claim, the four cardinal offsets take their stated values, and consecutive
offsets differ by one of plus or minus 1, width, width + 1, width - 1. -/
theorem claim_C4_circle_geometry (width : Int) (hw : 0 < width) :
    (∀ k : Fin 16, getCircleOffsets width k = circleRowDelta k * width + circleColDelta k) ∧
    getCircleOffsets width 0 = -(3 * width) ∧
    getCircleOffsets width 4 = 3 ∧
    getCircleOffsets width 8 = 3 * width ∧
    getCircleOffsets width 12 = -3 ∧
    (∀ k : Fin 16, 0 < k.val →
      ∃ d : Int,
        (d = 1 ∨ d = -1 ∨ d = width ∨ d = -width ∨
         d = width + 1 ∨ d = -(width + 1) ∨ d = width - 1 ∨ d = -(width - 1)) ∧
        getCircleOffsets width k =
          getCircleOffsets width ⟨k.val - 1, Nat.lt_of_le_of_lt (Nat.sub_le _ _) k.isLt⟩ + d) := by
  refine ⟨getCircleOffsets_decomp width, ?_, ?_, ?_, ?_, ?_⟩
  · rw [getCircleOffsets_decomp]; simp [circleRowDelta, circleColDelta] <;> ring
  · rw [getCircleOffsets_decomp]; simp [circleRowDelta, circleColDelta]
  · rw [getCircleOffsets_decomp]; simp [circleRowDelta, circleColDelta]
  · rw [getCircleOffsets_decomp]; simp [circleRowDelta, circleColDelta]
  · intro k hk
    fin_cases k
    · exact absurd hk (by decide)
    · exact ⟨1, by tauto, by simp [getCircleOffsets] <;> ring⟩
    · exact ⟨width + 1, by tauto, by simp [getCircleOffsets] <;> ring⟩
    · exact ⟨width + 1, by tauto, by simp [getCircleOffsets] <;> ring⟩
    · exact ⟨width, by tauto, by simp [getCircleOffsets] <;> ring⟩
    · exact ⟨width, by tauto, by simp [getCircleOffsets] <;> ring⟩
    · exact ⟨width - 1, by tauto, by simp [getCircleOffsets] <;> ring⟩
    · exact ⟨width - 1, by tauto, by simp [getCircleOffsets] <;> ring⟩
    · exact ⟨-1, by tauto, by simp [getCircleOffsets] <;> ring⟩
    · exact ⟨-1, by tauto, by simp [getCircleOffsets] <;> ring⟩
    · exact ⟨-(width + 1), by tauto, by simp [getCircleOffsets] <;> ring⟩
    · exact ⟨-(width + 1), by tauto, by simp [getCircleOffsets] <;> ring⟩
    · exact ⟨-width, by tauto, by simp [getCircleOffsets] <;> ring⟩
    · exact ⟨-width, by tauto, by simp [getCircleOffsets] <;> ring⟩
    · exact ⟨-(width - 1), by tauto, by simp [getCircleOffsets] <;> ring⟩
    · exact ⟨-(width - 1), by tauto, by simp [getCircleOffsets] <;> ring⟩

/-- Witness for C4 at width 7: the hypothesis of positivity holds and the
conclusion is obtained from the theorem itself. -/
theorem claim_C4_circle_geometry_witness :
    getCircleOffsets 7 0 = -(3 * 7) ∧ getCircleOffsets 7 8 = 3 * 7 :=
  ⟨(claim_C4_circle_geometry 7 (by decide)).2.1,
   (claim_C4_circle_geometry 7 (by decide)).2.2.2.1⟩

/-- Unfolding equation for the column loop. -/
theorem rowScan_eq (P : Nat → Bool) (stop j : Nat) :
    rowScan P stop j =
      if j < stop then
        (if P j then j :: rowScan P stop (j + 4) else rowScan P stop (j + 1))
      else [] := by
  rw [rowScan]
  simp

/-- Unfolding equation for the row loop. -/
theorem findCornersFrom_eq (pixels : Int → Int) (width height : Nat) (threshold : Int)
    (i : Nat) :
    findCornersFrom pixels width height threshold i =
      if i < height - 3 then
        (rowScan (cornerAt pixels width threshold i) (width - 3) 3).map (fun j => (j, i))
          ++ findCornersFrom pixels width height threshold (i + 1)
      else [] := by
  rw [findCornersFrom]
  simp

/-- Every column the column loop emits lies between its start and its stop
bound and satisfies the predicate. -/
theorem rowScan_mem (P : Nat → Bool) (stop j x : Nat) (hx : x ∈ rowScan P stop j) :
    j ≤ x ∧ x < stop ∧ P x = true := by
  by_cases h : j < stop
  · rw [rowScan_eq, if_pos h] at hx
    by_cases hP : P j
    · rw [if_pos hP] at hx
      rcases List.mem_cons.mp hx with rfl | hx'
      · exact ⟨le_refl _, h, hP⟩
      · have hrec := rowScan_mem P stop (j + 4) x hx'
        exact ⟨by omega, hrec.2.1, hrec.2.2⟩
    · rw [if_neg hP] at hx
      have hrec := rowScan_mem P stop (j + 1) x hx
      exact ⟨by omega, hrec.2.1, hrec.2.2⟩
  · rw [rowScan_eq, if_neg h] at hx
    simp at hx
termination_by stop - j
decreasing_by
  all_goals omega

/-- Columns of one row are emitted left to right with gaps of at least 4. -/
theorem rowScan_pairwise (P : Nat → Bool) (stop j : Nat) :
    (rowScan P stop j).Pairwise (fun a b => a + 4 ≤ b) := by
  by_cases h : j < stop
  · rw [rowScan_eq, if_pos h]
    by_cases hP : P j
    · rw [if_pos hP]
      refine List.pairwise_cons.mpr ⟨fun b hb => ?_, rowScan_pairwise P stop (j + 4)⟩
      have hrec := rowScan_mem P stop (j + 4) b hb
      omega
    · rw [if_neg hP]
      exact rowScan_pairwise P stop (j + 1)
  · rw [rowScan_eq, if_neg h]
    exact List.Pairwise.nil
termination_by stop - j
decreasing_by
  all_goals omega

/-- The column loop emits nothing when started at or past its stop bound. -/
theorem rowScan_eq_nil_of_le (P : Nat → Bool) (stop j : Nat) (h : stop ≤ j) :
    rowScan P stop j = [] := by
  rw [rowScan_eq, if_neg (by omega)]

/-- The column loop emits nothing when the predicate never holds. -/
theorem rowScan_eq_nil_of_false (P : Nat → Bool) (stop j : Nat)
    (hP : ∀ x, P x = false) : rowScan P stop j = [] := by
  by_cases h : j < stop
  · rw [rowScan_eq, if_pos h, if_neg (by simp [hP])]
    exact rowScan_eq_nil_of_false P stop (j + 1) hP
  · exact rowScan_eq_nil_of_le P stop j (by omega)
termination_by stop - j
decreasing_by
  all_goals omega

/-- Starting the column loop later never yields more hits: the greedy
earliest first selection with minimum gap 4 is optimal. -/
theorem rowScan_length_anti (P : Nat → Bool) (stop j j' : Nat) (h : j ≤ j') :
    (rowScan P stop j').length ≤ (rowScan P stop j).length := by
  rcases Nat.eq_or_lt_of_le h with rfl | hlt
  · exact le_refl _
  by_cases hs : j < stop
  · by_cases hP : P j
    · have hj : (rowScan P stop j).length = (rowScan P stop (j + 4)).length + 1 := by
        rw [rowScan_eq, if_pos hs, if_pos hP, List.length_cons]
      by_cases hs' : j' < stop
      · by_cases hP' : P j'
        · have hj' : (rowScan P stop j').length = (rowScan P stop (j' + 4)).length + 1 := by
            rw [rowScan_eq, if_pos hs', if_pos hP', List.length_cons]
          have hrec := rowScan_length_anti P stop (j + 4) (j' + 4) (by omega)
          omega
        · have hj' : (rowScan P stop j').length = (rowScan P stop (j' + 1)).length := by
            rw [rowScan_eq, if_pos hs', if_neg hP']
          have hrec := rowScan_length_anti P stop j (j' + 1) (by omega)
          omega
      · have hj' : rowScan P stop j' = [] := rowScan_eq_nil_of_le P stop j' (by omega)
        simp [hj']
    · have hj : (rowScan P stop j).length = (rowScan P stop (j + 1)).length := by
        rw [rowScan_eq, if_pos hs, if_neg hP]
      have hrec := rowScan_length_anti P stop (j + 1) j' (by omega)
      omega
  · have hj' : rowScan P stop j' = [] := rowScan_eq_nil_of_le P stop j' (by omega)
    simp [hj']
termination_by (stop - j, stop - j')

/-- Shrinking the hit predicate pointwise never increases the number of
emitted columns, even though the skip by 4 changes which columns are
tested. -/
theorem rowScan_length_subset (P Q : Nat → Bool) (stop : Nat)
    (hPQ : ∀ x, P x = true → Q x = true) (j : Nat) :
    (rowScan P stop j).length ≤ (rowScan Q stop j).length := by
  by_cases hs : j < stop
  · by_cases hP : P j
    · have hQ : Q j = true := hPQ j hP
      have h1 : (rowScan P stop j).length = (rowScan P stop (j + 4)).length + 1 := by
        rw [rowScan_eq, if_pos hs, if_pos hP, List.length_cons]
      have h2 : (rowScan Q stop j).length = (rowScan Q stop (j + 4)).length + 1 := by
        rw [rowScan_eq, if_pos hs, if_pos hQ, List.length_cons]
      have hrec := rowScan_length_subset P Q stop hPQ (j + 4)
      omega
    · have h1 : (rowScan P stop j).length = (rowScan P stop (j + 1)).length := by
        rw [rowScan_eq, if_pos hs, if_neg hP]
      have hrec := rowScan_length_subset P Q stop hPQ (j + 1)
      by_cases hQj : Q j
      · have h2 : (rowScan Q stop j).length = (rowScan Q stop (j + 4)).length + 1 := by
          rw [rowScan_eq, if_pos hs, if_pos hQj, List.length_cons]
        have h3 := rowScan_length_anti Q stop j (j + 1) (by omega)
        have h4 : (rowScan Q stop j).length = (rowScan Q stop (j + 4)).length + 1 := h2
        omega
      · have h2 : (rowScan Q stop j).length = (rowScan Q stop (j + 1)).length := by
          rw [rowScan_eq, if_pos hs, if_neg hQj]
        omega
  · simp [rowScan_eq_nil_of_le P stop j (by omega)]
termination_by stop - j
decreasing_by
  all_goals omega

/-- An indicator comparison is antitone in the threshold. -/
theorem indicator_anti (a t u : Int) (htu : t ≤ u) :
    (if a > u then (1 : Nat) else 0) ≤ if a > t then 1 else 0 := by
  split_ifs <;> omega

/-- Both cardinal counts are antitone in the threshold. -/
theorem cardinals_anti (cp : Fin 16 → Int) (p t u : Int) (htu : t ≤ u) :
    brightCardinals cp p u ≤ brightCardinals cp p t ∧
      darkCardinals cp p u ≤ darkCardinals cp p t := by
  unfold brightCardinals darkCardinals
  constructor <;>
    exact Nat.add_le_add (Nat.add_le_add (Nat.add_le_add
      (indicator_anti _ _ _ htu) (indicator_anti _ _ _ htu))
      (indicator_anti _ _ _ htu)) (indicator_anti _ _ _ htu)

/-- Raising the threshold can only turn acceptances into rejections. -/
theorem isCorner_threshold_anti (p : Int) (cp : Fin 16 → Int) (t u : Int) (htu : t ≤ u)
    (h : isCorner p cp u = true) : isCorner p cp t = true := by
  rw [isCorner_characterization] at h ⊢
  obtain ⟨hcard, x, hx, harc⟩ := h
  refine ⟨?_, x, hx, ?_⟩
  · rcases hcard with h1 | h1
    · exact Or.inl (le_trans h1 (cardinals_anti cp p t u htu).1)
    · exact Or.inr (le_trans h1 (cardinals_anti cp p t u htu).2)
  · rcases harc with hA | hA
    · exact Or.inl (fun y hy => by have := hA y hy; omega)
    · exact Or.inr (fun y hy => by have := hA y hy; omega)

/-- Raising the threshold can only turn candidate hits into misses. -/
theorem cornerAt_threshold_anti (pixels : Int → Int) (width : Nat) (t u : Int)
    (htu : t ≤ u) (i j : Nat) (h : cornerAt pixels width u i j = true) :
    cornerAt pixels width t i j = true := by
  simp only [cornerAt] at h ⊢
  exact isCorner_threshold_anti _ _ t u htu h

/-- The row loop produces at most as many corners at a raised threshold. -/
theorem findCornersFrom_length_anti (pixels : Int → Int) (width height : Nat)
    (t u : Int) (htu : t ≤ u) (i : Nat) :
    (findCornersFrom pixels width height u i).length ≤
      (findCornersFrom pixels width height t i).length := by
  by_cases h : i < height - 3
  · rw [findCornersFrom_eq pixels width height u i,
      findCornersFrom_eq pixels width height t i, if_pos h, if_pos h]
    simp only [List.length_append, List.length_map]
    have h1 := rowScan_length_subset (cornerAt pixels width u i)
      (cornerAt pixels width t i) (width - 3)
      (fun x hx => cornerAt_threshold_anti pixels width t u htu i x hx) 3
    have h2 := findCornersFrom_length_anti pixels width height t u htu (i + 1)
    omega
  · rw [findCornersFrom_eq pixels width height u i,
      findCornersFrom_eq pixels width height t i, if_neg h, if_neg h]
termination_by height - i
decreasing_by
  all_goals omega

/-- C7: for a fixed pixel buffer and geometry, raising the threshold never
increases the number of detected corners, skip optimization included. -/
theorem claim_C7_threshold_monotone (pixels : Int → Int) (width height : Nat)
    (t u : Int) (htu : t ≤ u) :
    (findCorners pixels width height u).length ≤
      (findCorners pixels width height t).length :=
  findCornersFrom_length_anti pixels width height t u htu 3

/-- Witness for C7 at a concrete instance. -/
theorem claim_C7_threshold_monotone_witness :
    (findCorners (fun _ => 0) 0 0 1).length ≤ (findCorners (fun _ => 0) 0 0 0).length :=
  claim_C7_threshold_monotone (fun _ => 0) 0 0 0 1 (by decide)

/-- Every emitted pair of the row loop carries a row at or after the start
row and strictly inside the lower border, and its column is a column loop
hit of its own row. -/
theorem findCornersFrom_mem (pixels : Int → Int) (width height : Nat) (t : Int)
    (i0 : Nat) (c : Nat × Nat) (hc : c ∈ findCornersFrom pixels width height t i0) :
    i0 ≤ c.2 ∧ c.2 < height - 3 ∧
      c.1 ∈ rowScan (cornerAt pixels width t c.2) (width - 3) 3 := by
  by_cases h : i0 < height - 3
  · rw [findCornersFrom_eq, if_pos h] at hc
    rcases List.mem_append.mp hc with hm | hm
    · rcases List.mem_map.mp hm with ⟨j, hj, rfl⟩
      exact ⟨le_refl _, h, hj⟩
    · have hrec := findCornersFrom_mem pixels width height t (i0 + 1) c hm
      exact ⟨by omega, hrec.2.1, hrec.2.2⟩
  · rw [findCornersFrom_eq, if_neg h] at hc
    simp at hc
termination_by height - i0
decreasing_by
  all_goals omega

/-- C3: every reported corner lies in the interior region: columns and rows
between 3 and width - 4, height - 4 respectively. -/
theorem claim_C3_interior (pixels : Int → Int) (width height : Nat) (t : Int)
    (x y : Nat) (hm : (x, y) ∈ findCorners pixels width height t) :
    3 ≤ x ∧ x ≤ width - 4 ∧ 3 ≤ y ∧ y ≤ height - 4 := by
  have h1 := findCornersFrom_mem pixels width height t 3 (x, y) hm
  have h2 := rowScan_mem _ _ _ _ h1.2.2
  omega

/-- Seven by seven image whose single interior candidate is a corner: the
centre pixel is dark, every other pixel bright. -/
def pixOneDark : Int → Int := fun idx => if idx = 24 then 0 else 100

/-- Witness for C3: the single corner of the witness image is reported at
(3, 3) and satisfies the interior bounds. -/
theorem claim_C3_interior_witness :
    3 ≤ 3 ∧ 3 ≤ 7 - 4 ∧ 3 ≤ 3 ∧ 3 ≤ 7 - 4 :=
  claim_C3_interior pixOneDark 7 7 10 3 3 (by
    simp [findCorners, findCornersFrom_eq, rowScan_eq,
      show cornerAt pixOneDark 7 10 3 3 = true from by decide])

/-- A uniform sample is always trivially excluded at a positive threshold,
so isCorner rejects it. -/
theorem isCorner_uniform (c t : Int) (ht : 0 < t) :
    isCorner c (fun _ => c) t = false := by
  cases hco : isCorner c (fun _ => c) t
  · rfl
  · exfalso
    have hch := (isCorner_characterization c (fun _ => c) t).mp hco
    have ht0 : ¬(t < 0) := by omega
    rcases hch.1 with h3 | h3 <;> simp [brightCardinals, darkCardinals, ht0] at h3

/-- The row loop emits nothing when no candidate is ever accepted. -/
theorem findCornersFrom_eq_nil (pixels : Int → Int) (width height : Nat) (t : Int)
    (hP : ∀ i j, cornerAt pixels width t i j = false) (i : Nat) :
    findCornersFrom pixels width height t i = [] := by
  by_cases h : i < height - 3
  · rw [findCornersFrom_eq, if_pos h, rowScan_eq_nil_of_false _ _ _ (hP i),
      findCornersFrom_eq_nil pixels width height t hP (i + 1)]
    simp
  · rw [findCornersFrom_eq, if_neg h]
termination_by height - i
decreasing_by
  all_goals omega

/-- C9: a uniform image yields no corners at any positive threshold. -/
theorem claim_C9_uniform_empty (c : Int) (width height : Nat) (t : Int) (ht : 0 < t) :
    findCorners (fun _ => c) width height t = [] := by
  apply findCornersFrom_eq_nil
  intro i j
  simpa [cornerAt] using isCorner_uniform c t ht

/-- Witness for C9 at a concrete uniform image. -/
theorem claim_C9_uniform_empty_witness :
    findCorners (fun _ => (7 : Int)) 9 9 1 = [] :=
  claim_C9_uniform_empty 7 9 9 1 (by decide)

/-- Restricting the row loop output to one row keeps exactly the hits of
that row, if that row is scanned, and nothing otherwise. -/
theorem findCornersFrom_filter (pixels : Int → Int) (width height : Nat) (t : Int)
    (y i0 : Nat) :
    (findCornersFrom pixels width height t i0).filter (fun c => c.2 == y) =
      if i0 ≤ y ∧ y < height - 3 then
        (rowScan (cornerAt pixels width t y) (width - 3) 3).map (fun j => (j, y))
      else [] := by
  by_cases h : i0 < height - 3
  · rw [findCornersFrom_eq, if_pos h, List.filter_append]
    by_cases hy : i0 = y
    · subst hy
      rw [if_pos ⟨le_refl _, h⟩]
      have h1 : (((rowScan (cornerAt pixels width t i0) (width - 3) 3).map
          (fun j => (j, i0))).filter (fun c => c.2 == i0)) =
          (rowScan (cornerAt pixels width t i0) (width - 3) 3).map (fun j => (j, i0)) := by
        apply List.filter_eq_self.mpr
        intro a ha
        rcases List.mem_map.mp ha with ⟨j, _, rfl⟩
        simp
      have h2 : (findCornersFrom pixels width height t (i0 + 1)).filter
          (fun c => c.2 == i0) = [] := by
        apply List.filter_eq_nil_iff.mpr
        intro a ha
        have hmem := findCornersFrom_mem pixels width height t (i0 + 1) a ha
        simp only [beq_iff_eq]
        omega
      rw [h1, h2, List.append_nil]
    · have h1 : (((rowScan (cornerAt pixels width t i0) (width - 3) 3).map
          (fun j => (j, i0))).filter (fun c => c.2 == y)) = [] := by
        apply List.filter_eq_nil_iff.mpr
        intro a ha
        rcases List.mem_map.mp ha with ⟨j, _, rfl⟩
        simpa using hy
      rw [h1, List.nil_append, findCornersFrom_filter pixels width height t y (i0 + 1)]
      by_cases hc : i0 + 1 ≤ y ∧ y < height - 3
      · rw [if_pos hc, if_pos (by omega)]
      · rw [if_neg hc, if_neg (by omega)]
  · rw [findCornersFrom_eq, if_neg h, if_neg (by omega)]
    rfl
termination_by height - i0
decreasing_by
  all_goals omega

/-- The row loop never emits the same pair twice: rows are strictly layered
and columns within a row are strictly increasing. -/
theorem findCornersFrom_nodup (pixels : Int → Int) (width height : Nat) (t : Int)
    (i0 : Nat) : (findCornersFrom pixels width height t i0).Nodup := by
  by_cases h : i0 < height - 3
  · rw [findCornersFrom_eq, if_pos h]
    refine List.Nodup.append ?_ (findCornersFrom_nodup pixels width height t (i0 + 1)) ?_
    · refine List.Nodup.map (fun a b hab => congrArg Prod.fst hab) ?_
      exact ((rowScan_pairwise _ _ _).imp (fun hab => by omega))
    · intro c hc1 hc2
      rcases List.mem_map.mp hc1 with ⟨j, _, rfl⟩
      have hmem := findCornersFrom_mem pixels width height t (i0 + 1) (j, i0) hc2
      have h2 : i0 + 1 ≤ i0 := hmem.1
      omega
  · rw [findCornersFrom_eq, if_neg h]
    exact List.nodup_nil
termination_by height - i0
decreasing_by
  all_goals omega

/-- C10: within one row the reported columns strictly increase along the
output with consecutive gaps of at least 4, and no coordinate pair is ever
reported twice. -/
theorem claim_C10_row_order_nodup (pixels : Int → Int) (width height : Nat)
    (t : Int) (y : Nat) :
    ((((findCorners pixels width height t).filter (fun c => c.2 == y)).map
        Prod.fst).Pairwise (fun a b => a + 4 ≤ b)) ∧
      (findCorners pixels width height t).Nodup := by
  constructor
  · simp only [findCorners]
    rw [findCornersFrom_filter]
    by_cases hc : 3 ≤ y ∧ y < height - 3
    · rw [if_pos hc, List.map_map]
      have hid : (Prod.fst ∘ fun j => (j, y)) = (id : Nat → Nat) := rfl
      rw [hid, List.map_id]
      exact rowScan_pairwise _ _ _
    · rw [if_neg hc]
      exact List.Pairwise.nil
  · exact findCornersFrom_nodup pixels width height t 3

/-- Spec level column scan, written from the words of claim C5: candidates
are the columns 3 to width - 4 inclusive; an accepted candidate is appended
as (col, row) and the next candidate tested in the row is col + 4, a
rejected one is followed by col + 1. -/
def specRowScan (isC : Nat → Bool) (width row col : Nat) : List (Nat × Nat) :=
  if h : 3 ≤ col ∧ col ≤ width - 4 then
    if isC col then (col, row) :: specRowScan isC width row (col + 4)
    else specRowScan isC width row (col + 1)
  else []
termination_by width - col
decreasing_by
  all_goals omega

/-- Spec level row iteration, written from the words of claim C5: rows 3 to
height - 4 inclusive in increasing order, each row scanned from column 3, so
the skip never carries over into the next row. -/
def specRowsScan (pixels : Int → Int) (width height : Nat) (t : Int) (row : Nat) :
    List (Nat × Nat) :=
  if h : 3 ≤ row ∧ row ≤ height - 4 then
    specRowScan (cornerAt pixels width t row) width row 3
      ++ specRowsScan pixels width height t (row + 1)
  else []
termination_by height - row
decreasing_by
  all_goals omega

/-- Spec level scan driver for claim C5. -/
def findCornersSpec (pixels : Int → Int) (width height : Nat) (t : Int) :
    List (Nat × Nat) :=
  specRowsScan pixels width height t 3

/-- The spec level column scan coincides with the column loop of the code
whenever it starts at column 3 or later. -/
theorem specRowScan_eq_rowScan (isC : Nat → Bool) (width row col : Nat) (h3 : 3 ≤ col) :
    specRowScan isC width row col =
      (rowScan isC (width - 3) col).map (fun j => (j, row)) := by
  by_cases h : col < width - 3
  · have hg : 3 ≤ col ∧ col ≤ width - 4 := ⟨h3, by omega⟩
    rw [specRowScan, dif_pos hg, rowScan_eq, if_pos h]
    by_cases hC : isC col
    · rw [if_pos hC, if_pos hC, List.map_cons,
        specRowScan_eq_rowScan isC width row (col + 4) (by omega)]
    · rw [if_neg hC, if_neg hC, specRowScan_eq_rowScan isC width row (col + 1) (by omega)]
  · have hg : ¬(3 ≤ col ∧ col ≤ width - 4) := by omega
    rw [specRowScan, dif_neg hg, rowScan_eq, if_neg h]
    rfl
termination_by width - col
decreasing_by
  all_goals omega

/-- The spec level row iteration coincides with the row loop of the code
whenever it starts at row 3 or later. -/
theorem specRowsScan_eq_findCornersFrom (pixels : Int → Int) (width height : Nat)
    (t : Int) (row : Nat) (h3 : 3 ≤ row) :
    specRowsScan pixels width height t row =
      findCornersFrom pixels width height t row := by
  by_cases h : row < height - 3
  · have hg : 3 ≤ row ∧ row ≤ height - 4 := ⟨h3, by omega⟩
    rw [specRowsScan, dif_pos hg, findCornersFrom_eq, if_pos h,
      specRowScan_eq_rowScan (cornerAt pixels width t row) width row 3 (le_refl 3),
      specRowsScan_eq_findCornersFrom pixels width height t (row + 1) (by omega)]
  · have hg : ¬(3 ≤ row ∧ row ≤ height - 4) := by omega
    rw [specRowsScan, dif_neg hg, findCornersFrom_eq, if_neg h]
termination_by height - row
decreasing_by
  all_goals omega

/-- C5: findCorners visits candidates in row major order over rows 3 to
height - 4 and columns 3 to width - 4, reports corners in discovery order,
and after an accepted candidate at (col, row) the next candidate tested in
that row is col + 4, with the skip never crossing a row boundary: the scan
driver equals the spec level scan built from exactly those words. -/
theorem claim_C5_scan_order (pixels : Int → Int) (width height : Nat) (t : Int) :
    findCorners pixels width height t = findCornersSpec pixels width height t :=
  (specRowsScan_eq_findCornersFrom pixels width height t 3 (le_refl 3)).symm

/-- Checked read from the pixel slice of the main.go variant: Go slice
indexing outside the bounds panics, modelled by none. -/
def readPixel (pixels : List Int) (idx : Int) : Option Int :=
  if h : 0 ≤ idx ∧ idx.toNat < pixels.length then some (pixels.get ⟨idx.toNat, h.2⟩)
  else none

/-- Total view of the pixel slice, matching the map based package variant:
out of range lookups default to 0. -/
def pixelFun (pixels : List Int) : Int → Int := fun idx =>
  if 0 ≤ idx then pixels.getD idx.toNat 0 else 0

/-- Checked candidate test over the slice: the candidate read and all
sixteen circle reads must be in bounds, otherwise the scan fails. -/
def cornerAtChecked (pixels : List Int) (width : Nat) (threshold : Int) (i j : Nat) :
    Option Bool :=
  let center : Int := ((i * width + j : Nat) : Int)
  (readPixel pixels center).bind (fun p =>
    if (∀ k : Fin 16, (readPixel pixels (center + getCircleOffsets (width : Int) k)).isSome)
    then some (isCorner p
      (fun k => (readPixel pixels (center + getCircleOffsets (width : Int) k)).getD 0)
      threshold)
    else none)

/-- Checked column loop over the slice. -/
def rowScanChecked (pixels : List Int) (width : Nat) (threshold : Int) (i j : Nat) :
    Option (List (Nat × Nat)) :=
  if h : j < width - 3 then
    (cornerAtChecked pixels width threshold i j).bind (fun b =>
      if b then
        (rowScanChecked pixels width threshold i (j + 4)).map (fun rest => (j, i) :: rest)
      else rowScanChecked pixels width threshold i (j + 1))
  else some []
termination_by width - j
decreasing_by
  all_goals omega

/-- Checked row loop over the slice. -/
def findCornersCheckedFrom (pixels : List Int) (width height : Nat) (threshold : Int)
    (i : Nat) : Option (List (Nat × Nat)) :=
  if h : i < height - 3 then
    (rowScanChecked pixels width threshold i 3).bind (fun r =>
      (findCornersCheckedFrom pixels width height threshold (i + 1)).map
        (fun rest => r ++ rest))
  else some []
termination_by height - i
decreasing_by
  all_goals omega

/-- Checked scan driver over the slice. -/
def findCornersChecked (pixels : List Int) (width height : Nat) (threshold : Int) :
    Option (List (Nat × Nat)) :=
  findCornersCheckedFrom pixels width height threshold 3

/-- Bounds of the circle deltas, by evaluation over the sixteen indices. -/
theorem circleColDelta_bounds : ∀ k : Fin 16, -3 ≤ circleColDelta k ∧ circleColDelta k ≤ 3 := by
  decide

theorem circleRowDelta_bounds : ∀ k : Fin 16, -3 ≤ circleRowDelta k ∧ circleRowDelta k ≤ 3 := by
  decide

/-- Every circle read of an interior candidate lands inside the flat buffer
range. -/
theorem circle_index_bounds (width height i j : Nat) (k : Fin 16)
    (hi3 : 3 ≤ i) (hi : i < height - 3) (hj3 : 3 ≤ j) (hj : j < width - 3) :
    0 ≤ ((i * width + j : Nat) : Int) + getCircleOffsets (width : Int) k ∧
      ((i * width + j : Nat) : Int) + getCircleOffsets (width : Int) k <
        ((width * height : Nat) : Int) := by
  obtain ⟨hc1, hc2⟩ := circleColDelta_bounds k
  obtain ⟨hr1, hr2⟩ := circleRowDelta_bounds k
  rw [getCircleOffsets_decomp]
  have hiI : (i : Int) + 4 ≤ (height : Int) := by exact_mod_cast (show i + 4 ≤ height by omega)
  have hjI : (j : Int) + 4 ≤ (width : Int) := by exact_mod_cast (show j + 4 ≤ width by omega)
  have hi3I : (3 : Int) ≤ (i : Int) := by exact_mod_cast hi3
  have hj3I : (3 : Int) ≤ (j : Int) := by exact_mod_cast hj3
  have hw0 : (0 : Int) ≤ (width : Int) := Int.ofNat_nonneg width
  have key : ((i : Int) + circleRowDelta k) * (width : Int) ≤
      ((height : Int) - 1) * (width : Int) := by
    have hle : (i : Int) + circleRowDelta k ≤ (height : Int) - 1 := by omega
    exact mul_le_mul_of_nonneg_right hle hw0
  have key0 : (0 : Int) ≤ ((i : Int) + circleRowDelta k) * (width : Int) := by
    have hle : (0 : Int) ≤ (i : Int) + circleRowDelta k := by omega
    exact mul_nonneg hle hw0
  push_cast
  constructor
  · nlinarith [key0]
  · nlinarith [key]

/-- A checked read at an in range index yields the total view value. -/
theorem readPixel_eq_some (pixels : List Int) (idx : Int)
    (h0 : 0 ≤ idx) (hl : idx.toNat < pixels.length) :
    readPixel pixels idx = some (pixelFun pixels idx) := by
  rw [readPixel, dif_pos ⟨h0, hl⟩, pixelFun, if_pos h0, List.getD_eq_get pixels 0 hl]

/-- The checked candidate test of an interior candidate never fails and
agrees with the total embedding. -/
theorem cornerAtChecked_eq (pixels : List Int) (width height : Nat) (t : Int)
    (i j : Nat) (hlen : pixels.length = width * height)
    (hi3 : 3 ≤ i) (hi : i < height - 3) (hj3 : 3 ≤ j) (hj : j < width - 3) :
    cornerAtChecked pixels width t i j = some (cornerAt (pixelFun pixels) width t i j) := by
  have hread : ∀ k : Fin 16,
      readPixel pixels (((i * width + j : Nat) : Int) + getCircleOffsets (width : Int) k) =
        some (pixelFun pixels (((i * width + j : Nat) : Int) +
          getCircleOffsets (width : Int) k)) := by
    intro k
    obtain ⟨hb0, hb1⟩ := circle_index_bounds width height i j k hi3 hi hj3 hj
    apply readPixel_eq_some
    · exact hb0
    · rw [hlen]
      omega
  have hcen : readPixel pixels ((i * width + j : Nat) : Int) =
      some (pixelFun pixels ((i * width + j : Nat) : Int)) := by
    obtain ⟨hb0, hb1⟩ := circle_index_bounds width height i j 4 hi3 hi hj3 hj
    have h4 : getCircleOffsets (width : Int) 4 = 3 := by
      rw [getCircleOffsets_decomp]
      simp [circleRowDelta, circleColDelta]
    rw [h4] at hb0 hb1
    apply readPixel_eq_some
    · omega
    · rw [hlen]
      omega
  have hcp : (fun k => (readPixel pixels (((i * width + j : Nat) : Int) +
        getCircleOffsets (width : Int) k)).getD 0) =
      (fun k : Fin 16 => pixelFun pixels (((i * width + j : Nat) : Int) +
        getCircleOffsets (width : Int) k)) := by
    funext k
    rw [hread k, Option.getD_some]
  rw [cornerAtChecked, hcen, Option.some_bind,
    if_pos (fun k => by rw [hread k]; rfl)]
  simp only [cornerAt]
  rw [hcp]

/-- The checked column loop of an interior row never fails and agrees with
the total embedding. -/
theorem rowScanChecked_eq (pixels : List Int) (width height : Nat) (t : Int)
    (hlen : pixels.length = width * height) (i : Nat) (hi3 : 3 ≤ i) (hi : i < height - 3)
    (j : Nat) (hj3 : 3 ≤ j) :
    rowScanChecked pixels width t i j =
      some ((rowScan (cornerAt (pixelFun pixels) width t i) (width - 3) j).map
        (fun j => (j, i))) := by
  by_cases h : j < width - 3
  · rw [rowScanChecked, dif_pos h,
      cornerAtChecked_eq pixels width height t i j hlen hi3 hi hj3 h,
      Option.some_bind, rowScan_eq, if_pos h]
    cases hC : cornerAt (pixelFun pixels) width t i j
    · rw [if_neg (by simp), if_neg (by simp),
        rowScanChecked_eq pixels width height t hlen i hi3 hi (j + 1) (by omega)]
    · rw [if_pos rfl, if_pos rfl,
        rowScanChecked_eq pixels width height t hlen i hi3 hi (j + 4) (by omega),
        Option.map_some']
      rfl
  · rw [rowScanChecked, dif_neg h, rowScan_eq, if_neg h]
    rfl
termination_by width - j
decreasing_by
  all_goals omega

/-- The checked row loop never fails under a well sized buffer and agrees
with the total embedding. -/
theorem findCornersCheckedFrom_eq (pixels : List Int) (width height : Nat) (t : Int)
    (hlen : pixels.length = width * height) (i : Nat) (hi3 : 3 ≤ i) :
    findCornersCheckedFrom pixels width height t i =
      some (findCornersFrom (pixelFun pixels) width height t i) := by
  by_cases h : i < height - 3
  · rw [findCornersCheckedFrom, dif_pos h,
      rowScanChecked_eq pixels width height t hlen i hi3 h 3 (le_refl 3),
      Option.some_bind,
      findCornersCheckedFrom_eq pixels width height t hlen (i + 1) (by omega),
      Option.map_some', findCornersFrom_eq (pixelFun pixels) width height t i, if_pos h]
  · rw [findCornersCheckedFrom, dif_neg h, findCornersFrom_eq, if_neg h]
termination_by height - i
decreasing_by
  all_goals omega

/-- The plain scan is empty on degenerate geometries. -/
theorem findCornersFrom_small (pixels : Int → Int) (width height : Nat) (t : Int)
    (i : Nat) (hsmall : width < 7 ∨ height < 7) (hi : 3 ≤ i) :
    findCornersFrom pixels width height t i = [] := by
  by_cases h : i < height - 3
  · have hw : width < 7 := by
      rcases hsmall with hw | hh
      · exact hw
      · omega
    rw [findCornersFrom_eq, if_pos h, rowScan_eq_nil_of_le _ _ _ (by omega),
      findCornersFrom_small pixels width height t (i + 1) hsmall (by omega)]
    rfl
  · rw [findCornersFrom_eq, if_neg h]
termination_by height - i
decreasing_by
  all_goals omega

/-- The checked scan also succeeds with the empty list on degenerate
geometries, with no condition on the buffer. -/
theorem findCornersCheckedFrom_small (pixels : List Int) (width height : Nat) (t : Int)
    (i : Nat) (hsmall : width < 7 ∨ height < 7) (hi : 3 ≤ i) :
    findCornersCheckedFrom pixels width height t i = some [] := by
  by_cases h : i < height - 3
  · have hw : width < 7 := by
      rcases hsmall with hw | hh
      · exact hw
      · omega
    have hrow : rowScanChecked pixels width t i 3 = some [] := by
      rw [rowScanChecked, dif_neg (by omega)]
    rw [findCornersCheckedFrom, dif_pos h, hrow, Option.some_bind,
      findCornersCheckedFrom_small pixels width height t (i + 1) hsmall (by omega),
      Option.map_some']
    rfl
  · rw [findCornersCheckedFrom, dif_neg h]
termination_by height - i
decreasing_by
  all_goals omega

/-- C6: under a buffer of length width times height every index the scan
reads is in range, so the Option valued embedding never takes its out of
bounds branch and agrees with the total embedding; and any geometry smaller
than 7 in either direction yields the empty corner list. -/
theorem claim_C6_totality (pixels : List Int) (width height : Nat) (t : Int) :
    (pixels.length = width * height →
      findCornersChecked pixels width height t =
        some (findCorners (pixelFun pixels) width height t)) ∧
    (width < 7 ∨ height < 7 →
      findCorners (pixelFun pixels) width height t = [] ∧
      findCornersChecked pixels width height t = some []) := by
  constructor
  · intro hlen
    exact findCornersCheckedFrom_eq pixels width height t hlen 3 (le_refl 3)
  · intro hsmall
    exact ⟨findCornersFrom_small (pixelFun pixels) width height t 3 hsmall (le_refl 3),
      findCornersCheckedFrom_small pixels width height t 3 hsmall (le_refl 3)⟩

/-- Witness for C6 at a concrete degenerate instance. -/
theorem claim_C6_totality_witness :
    findCornersChecked [] 0 0 0 = some (findCorners (pixelFun []) 0 0 0) ∧
      findCorners (pixelFun []) 0 0 0 = [] :=
  ⟨(claim_C6_totality [] 0 0 0).1 rfl, ((claim_C6_totality [] 0 0 0).2 (Or.inl (by omega))).1⟩

end Fast
